import Mathlib

/-!
Verification development for the message-dispatch and coordination layer
(`app/queueing_extended.py`): channel queue registry, debounce coalescer,
orchestrator worker pool with status broadcasting, and the sequential
memory-writer lane.  Python dicts are embedded as association lists,
`asyncio` task interleaving as explicit small-step transition systems.
-/

namespace KiraT

/-! ## Association lists (Python `dict`) -/

/-- A Slack message object: a Python dict with string keys and values. -/
abbrev Msg := List (String × String)

/-- Dict lookup, `d.get(k)`; `none` models an absent key / Python `None`. -/
def alGet {κ α : Type} [DecidableEq κ] (l : List (κ × α)) (k : κ) : Option α :=
  match l with
  | [] => none
  | (k', v) :: t => if k' = k then some v else alGet t k

/-- Dict assignment `d[k] = v`: replaces the binding if present, else appends. -/
def alSet {κ α : Type} [DecidableEq κ] (l : List (κ × α)) (k : κ) (v : α) : List (κ × α) :=
  match l with
  | [] => [(k, v)]
  | (k', v') :: t => if k' = k then (k, v) :: t else (k', v') :: alSet t k v

/-- Dict deletion `del d[k]`. -/
def alDel {κ α : Type} [DecidableEq κ] (l : List (κ × α)) (k : κ) : List (κ × α) :=
  match l with
  | [] => []
  | (k', v') :: t => if k' = k then alDel t k else (k', v') :: alDel t k

theorem alGet_alSet_self {κ α : Type} [DecidableEq κ] (l : List (κ × α)) (k : κ) (v : α) :
    alGet (alSet l k v) k = some v := by
  induction l with
  | nil => simp [alGet, alSet]
  | cons p t ih =>
    obtain ⟨k', v'⟩ := p
    by_cases h : k' = k <;> simp [alGet, alSet, h, ih]

theorem alGet_alSet_ne {κ α : Type} [DecidableEq κ] (l : List (κ × α)) (k k' : κ) (v : α)
    (h : k' ≠ k) : alGet (alSet l k v) k' = alGet l k' := by
  have h' : ¬ (k = k') := fun hk => h (Eq.symm hk)
  induction l with
  | nil => simp [alGet, alSet, h']
  | cons p t ih =>
    obtain ⟨k₀, v₀⟩ := p
    by_cases h₀ : k₀ = k
    · subst h₀
      simp [alGet, alSet, h']
    · by_cases h₁ : k₀ = k' <;> simp [alGet, alSet, h₀, h₁, h, ih]

theorem alGet_alDel_self {κ α : Type} [DecidableEq κ] (l : List (κ × α)) (k : κ) :
    alGet (alDel l k) k = none := by
  induction l with
  | nil => simp [alGet, alDel]
  | cons p t ih =>
    obtain ⟨k', v'⟩ := p
    by_cases h : k' = k <;> simp [alGet, alDel, h, ih]

theorem alGet_alDel_ne {κ α : Type} [DecidableEq κ] (l : List (κ × α)) (k k' : κ)
    (h : k' ≠ k) : alGet (alDel l k) k' = alGet l k' := by
  have h' : ¬ (k = k') := fun hk => h (Eq.symm hk)
  induction l with
  | nil => simp [alGet, alDel]
  | cons p t ih =>
    obtain ⟨k₀, v₀⟩ := p
    by_cases h₀ : k₀ = k
    · subst h₀
      simp [alGet, alDel, h', ih]
    · by_cases h₁ : k₀ = k' <;> simp [alGet, alDel, h₀, h₁, h, ih]

/-! ## Python string helpers -/

/-- The characters removed by Python `str.strip()`. -/
def pyWhitespace (c : Char) : Bool :=
  c = ' ' || c = '\t' || c = '\n' || c = '\r' || c = '\x0b' || c = '\x0c'

/-- Python `s.strip()`. -/
def pyStrip (s : String) : String :=
  String.mk (((s.toList.dropWhile pyWhitespace).reverse.dropWhile pyWhitespace).reverse)

/-- Python `str(x)` applied to an optional string: `None` prints as `"None"`
(as happens inside the f-string that builds the debounce key). -/
def pyStr : Option String → String
  | none => "None"
  | some s => s

/-- Python `"\n".join(parts)`. -/
def joinNewline : List String → String
  | [] => ""
  | [t] => t
  | t :: rest => t ++ "\n" ++ joinNewline rest

/-! ## Debounce coalescer

State of the module-level dicts `_accumulated_messages` and `_debounce_timers`.
A registered `asyncio.Task` is identified by a task id; cancelling a timer is
modelled by overwriting the registered id, so a stale task id never fires. -/

structure DebState where
  accumulated : List (String × List Msg)
  timers : List (String × Nat)
  nextTask : Nat
deriving DecidableEq

/-- The bucket key `f"{channel_id}:{user_id}"` built from
`message.get("channel")` and `message.get("user")`. -/
def debounceKey (m : Msg) : String :=
  pyStr (alGet m "channel") ++ ":" ++ pyStr (alGet m "user")

/-- `debounced_enqueue_message(message, delay_seconds)`.  Returns the new state
together with the messages forwarded immediately (the `delay == 0` path calls
`enqueue_message` directly; otherwise the message is only accumulated). -/
def debounced_enqueue_message (s : DebState) (m : Msg) (delay : Nat) :
    DebState × List Msg :=
  if delay = 0 then (s, [m])
  else
    let key := debounceKey m
    let acc :=
      match alGet s.accumulated key with
      | none => alSet s.accumulated key [m]
      | some msgs => alSet s.accumulated key (msgs ++ [m])
    -- cancel any existing timer and register a fresh task for this bucket
    ({ accumulated := acc,
       timers := alSet s.timers key s.nextTask,
       nextTask := s.nextTask + 1 }, [])

/-- Log records emitted on the debounce timer path. -/
inductive DebLog where
  | warnNoText (key : String)
  | errorInProcess (key : String)
deriving DecidableEq

/-- The body of `delayed_process` for the task `tid` registered on bucket
`key`, run at natural timer expiry.  A task whose id is no longer the one
registered in `_debounce_timers` was cancelled and never runs its body.
Returns the new state, the messages forwarded via `enqueue_message`, and the
log records.  The `[]` bucket case is the `except Exception` path of the
source (an index error on `accumulated[0]`), which also clears the bucket. -/
def delayed_process (s : DebState) (key : String) (tid : Nat) :
    DebState × List Msg × List DebLog :=
  if alGet s.timers key = some tid then
    match alGet s.accumulated key with
    | none => (s, [], [])
    | some msgs =>
      let cleaned : DebState :=
        { s with accumulated := alDel s.accumulated key,
                 timers := alDel s.timers key }
      match msgs with
      | [] => (cleaned, [], [DebLog.errorInProcess key])
      | base :: _ =>
        let parts :=
          (msgs.map (fun m => pyStrip ((alGet m "text").getD ""))).filter
            (fun t => t ≠ "")
        if parts = [] then (cleaned, [], [DebLog.warnNoText key])
        else (cleaned, [alSet base "text" (joinNewline parts)], [])
  else (s, [], [])

/-- Events the debounce subsystem reacts to: a submission, or the natural
expiry of the timer task `tid` on bucket `key`. -/
inductive DebEvent where
  | submit (m : Msg) (delay : Nat)
  | fire (key : String) (tid : Nat)

/-- One event step of the debounce subsystem. -/
def debStep (s : DebState) : DebEvent → DebState × List Msg × List DebLog
  | .submit m d =>
    let r := debounced_enqueue_message s m d
    (r.1, r.2, [])
  | .fire k tid => delayed_process s k tid

/-- The empty initial state of the module-level dicts. -/
def debInit : DebState := ⟨[], [], 0⟩

/-- Run a sequence of debounce events from a state, keeping only the state. -/
def debRun (s : DebState) : List DebEvent → DebState
  | [] => s
  | e :: rest => debRun (debStep s e).1 rest

/-! ## Debounce: bucket-key invariant -/

/-- Every message sitting in a debounce bucket carries exactly that bucket's
key: `_accumulated_messages[k]` only ever holds messages whose
`channel:user` encoding is `k`. -/
def BucketInv (s : DebState) : Prop :=
  ∀ k msgs, alGet s.accumulated k = some msgs → ∀ m ∈ msgs, debounceKey m = k

theorem bucketInv_init : BucketInv debInit := by
  intro k msgs h
  simp [debInit, alGet] at h

/-- `delayed_process` either leaves `_accumulated_messages` unchanged or
deletes the fired bucket from it. -/
theorem delayed_process_accumulated (s : DebState) (key : String) (tid : Nat) :
    (delayed_process s key tid).1.accumulated = s.accumulated ∨
    (delayed_process s key tid).1.accumulated = alDel s.accumulated key := by
  unfold delayed_process
  split
  · split
    · exact Or.inl rfl
    · dsimp only
      split
      · exact Or.inr rfl
      · split <;> exact Or.inr rfl
  · exact Or.inl rfl

theorem bucketInv_step (s : DebState) (e : DebEvent) (h : BucketInv s) :
    BucketInv (debStep s e).1 := by
  cases e with
  | submit m d =>
    by_cases hd : d = 0
    · simpa [debStep, debounced_enqueue_message, hd] using h
    · intro k msgs hk mm hmm
      rcases hacc : alGet s.accumulated (debounceKey m) with _ | msgs₀ <;>
        simp only [debStep, debounced_enqueue_message, hd, hacc, if_false] at hk
      · by_cases hkey : k = debounceKey m
        · subst hkey
          rw [alGet_alSet_self] at hk
          obtain rfl : [m] = msgs := by injection hk
          simp at hmm
          subst hmm
          rfl
        · rw [alGet_alSet_ne _ _ _ _ hkey] at hk
          exact h k msgs hk mm hmm
      · by_cases hkey : k = debounceKey m
        · subst hkey
          rw [alGet_alSet_self] at hk
          obtain rfl : msgs₀ ++ [m] = msgs := by injection hk
          rcases List.mem_append.mp hmm with hin | hin
          · exact h _ _ hacc mm hin
          · simp at hin
            subst hin
            rfl
        · rw [alGet_alSet_ne _ _ _ _ hkey] at hk
          exact h k msgs hk mm hmm
  | fire key tid =>
    intro k msgs hk mm hmm
    have hds : (debStep s (DebEvent.fire key tid)).1 = (delayed_process s key tid).1 := rfl
    rw [hds] at hk
    rcases delayed_process_accumulated s key tid with hsame | hdel
    · rw [hsame] at hk
      exact h k msgs hk mm hmm
    · rw [hdel] at hk
      by_cases hkey : k = key
      · subst hkey
        rw [alGet_alDel_self] at hk
        cases hk
      · rw [alGet_alDel_ne _ _ _ hkey] at hk
        exact h k msgs hk mm hmm

theorem bucketInv_run (events : List DebEvent) (s : DebState) (h : BucketInv s) :
    BucketInv (debRun s events) := by
  induction events generalizing s with
  | nil => exact h
  | cons e rest ih => exact ih _ (bucketInv_step s e h)

/-- Claim C2, counterexample: the bucket key is the plain string
concatenation `channel ++ ":" ++ user`, so the two distinct pairs
`("a:b", "c")` and `("a", "b:c")` collide on the key `"a:b:c"`: both
submissions land in the same bucket and the timer forwards a single job
whose text merges both submissions. -/
theorem debounce_bucket_collision_counterexample :
    (alGet ([("channel", "a:b"), ("user", "c"), ("text", "x")] : Msg) "channel",
      alGet ([("channel", "a:b"), ("user", "c"), ("text", "x")] : Msg) "user") ≠
    (alGet ([("channel", "a"), ("user", "b:c"), ("text", "y")] : Msg) "channel",
      alGet ([("channel", "a"), ("user", "b:c"), ("text", "y")] : Msg) "user") ∧
    alGet (debounced_enqueue_message
        (debounced_enqueue_message debInit
          [("channel", "a:b"), ("user", "c"), ("text", "x")] 2).1
        [("channel", "a"), ("user", "b:c"), ("text", "y")] 2).1.accumulated "a:b:c" =
      some [[("channel", "a:b"), ("user", "c"), ("text", "x")],
            [("channel", "a"), ("user", "b:c"), ("text", "y")]] ∧
    (delayed_process (debounced_enqueue_message
        (debounced_enqueue_message debInit
          [("channel", "a:b"), ("user", "c"), ("text", "x")] 2).1
        [("channel", "a"), ("user", "b:c"), ("text", "y")] 2).1 "a:b:c" 1).2.1.map
      (fun m => alGet m "text") = [some ("x" ++ "\n" ++ "y")] := by
  decide

/-- Claim C2 (amended): submissions to (routing key, originator) pairs whose
encoded bucket keys `channel ++ ":" ++ user` differ (in particular, any two
distinct pairs whose components contain no colon) accumulate in distinct
debounce buckets and are never merged: every message found in a bucket
carries that bucket's key, so any merged job is built from messages of a
single encoded key. -/
theorem debounce_bucket_isolation (events : List DebEvent) (k : String)
    (msgs : List Msg)
    (hk : alGet (debRun debInit events).accumulated k = some msgs) :
    ∀ m ∈ msgs, debounceKey m = k :=
  bucketInv_run events debInit bucketInv_init k msgs hk

/-- Witness for `debounce_bucket_isolation` at a concrete one-submission
trace: the message found in bucket `C1:U1` carries key `C1:U1`. -/
theorem debounce_bucket_isolation_witness :
    debounceKey [("channel", "C1"), ("user", "U1"), ("text", "a")] = "C1:U1" :=
  debounce_bucket_isolation
    [DebEvent.submit [("channel", "C1"), ("user", "U1"), ("text", "a")] 2]
    "C1:U1" [[("channel", "C1"), ("user", "U1"), ("text", "a")]] (by decide)
    [("channel", "C1"), ("user", "U1"), ("text", "a")] (by decide)

/-- Claim C8: when every accumulated text strips to empty, natural expiry
forwards nothing, logs a warning, and clears the bucket's accumulated state
and timer entry. -/
theorem debounce_all_empty_dropped (s : DebState) (k : String) (tid : Nat)
    (msgs : List Msg)
    (ht : alGet s.timers k = some tid)
    (ha : alGet s.accumulated k = some msgs)
    (hne : msgs ≠ [])
    (hempty : ∀ m ∈ msgs, pyStrip ((alGet m "text").getD "") = "") :
    (delayed_process s k tid).2.1 = [] ∧
    (delayed_process s k tid).2.2 = [DebLog.warnNoText k] ∧
    alGet (delayed_process s k tid).1.accumulated k = none ∧
    alGet (delayed_process s k tid).1.timers k = none := by
  have hparts :
      (msgs.map (fun m => pyStrip ((alGet m "text").getD ""))).filter
        (fun t => t ≠ "") = [] := by
    rw [List.filter_eq_nil_iff]
    intro a ha'
    rcases List.mem_map.mp ha' with ⟨m, hm, rfl⟩
    simp [hempty m hm]
  rcases msgs with _ | ⟨base, rest⟩
  · exact absurd rfl hne
  · have hempty' : ∀ a ∈ rest, pyStrip ((alGet a "text").getD "") = "" := by
      intro a hha
      exact hempty a (List.mem_cons_of_mem base hha)
    have hbase : pyStrip ((alGet base "text").getD "") = "" :=
      hempty base (List.mem_cons_self base rest)
    simp [delayed_process, ht, ha, alGet_alDel_self, hbase]
    rw [if_pos hempty']
    simp [alGet_alDel_self]

/-- Witness for `debounce_all_empty_dropped`: a two-message burst of
whitespace-only texts. -/
theorem debounce_all_empty_dropped_witness :
    (delayed_process
        ⟨[("C1:U1", [[("channel", "C1"), ("user", "U1"), ("text", "  ")],
                     [("channel", "C1"), ("user", "U1"), ("text", "\t")]])],
         [("C1:U1", 1)], 2⟩ "C1:U1" 1).2.1 = [] ∧
    (delayed_process
        ⟨[("C1:U1", [[("channel", "C1"), ("user", "U1"), ("text", "  ")],
                     [("channel", "C1"), ("user", "U1"), ("text", "\t")]])],
         [("C1:U1", 1)], 2⟩ "C1:U1" 1).2.2 = [DebLog.warnNoText "C1:U1"] ∧
    alGet (delayed_process
        ⟨[("C1:U1", [[("channel", "C1"), ("user", "U1"), ("text", "  ")],
                     [("channel", "C1"), ("user", "U1"), ("text", "\t")]])],
         [("C1:U1", 1)], 2⟩ "C1:U1" 1).1.accumulated "C1:U1" = none ∧
    alGet (delayed_process
        ⟨[("C1:U1", [[("channel", "C1"), ("user", "U1"), ("text", "  ")],
                     [("channel", "C1"), ("user", "U1"), ("text", "\t")]])],
         [("C1:U1", 1)], 2⟩ "C1:U1" 1).1.timers "C1:U1" = none :=
  debounce_all_empty_dropped
    ⟨[("C1:U1", [[("channel", "C1"), ("user", "U1"), ("text", "  ")],
                 [("channel", "C1"), ("user", "U1"), ("text", "\t")]])],
     [("C1:U1", 1)], 2⟩ "C1:U1" 1
    [[("channel", "C1"), ("user", "U1"), ("text", "  ")],
     [("channel", "C1"), ("user", "U1"), ("text", "\t")]]
    (by decide) (by decide) (by decide) (by decide)

/-! ## Debounce: burst merge (claim C1) -/

/-- The debounce state after submitting three messages in a burst (each
submission arriving before the previous timer fires, so each cancels the
previous timer). -/
def burst3 (s0 : DebState) (A B C : Msg) (d : Nat) : DebState :=
  (debounced_enqueue_message
    (debounced_enqueue_message
      (debounced_enqueue_message s0 A d).1 B d).1 C d).1

/-- Claim C1, counterexample: `delayed_process` strips each accumulated text
and drops empty ones before joining, so for the burst with texts
`""`, `"b"`, `"c"` the forwarded text is `"b\nc"`, not
`A.text ++ "\n" ++ B.text ++ "\n" ++ C.text` (which would be `"\nb\nc"`). -/
theorem debounce_merge_text_counterexample :
    ((delayed_process
        (burst3 debInit
          [("channel", "C1"), ("user", "U1"), ("text", "")]
          [("channel", "C1"), ("user", "U1"), ("text", "b")]
          [("channel", "C1"), ("user", "U1"), ("text", "c")] 2)
        "C1:U1" 2).2.1.map (fun m => alGet m "text")) =
      [some ("b" ++ "\n" ++ "c")] ∧
    ("b" ++ "\n" ++ "c" : String) ≠ "" ++ "\n" ++ "b" ++ "\n" ++ "c" := by
  decide

/-- Claim C1 (amended): for a burst of three submissions A, B, C to the same
`(channel, user)` bucket with positive delay, starting from a state in which
the bucket is empty, no submission forwards anything, and the natural expiry
of the last registered timer forwards exactly one merged job whose text is
the newline-join of the stripped non-empty texts — hence equal to
`A.text ++ "\n" ++ B.text ++ "\n" ++ C.text` whenever each text is already
stripped and non-empty — whose non-text fields are those of A, and the
bucket's accumulated state and timer entry are cleared. -/
theorem debounce_merge_burst (s0 : DebState) (A B C : Msg) (ch u ta tb tc : String)
    (d : Nat) (hd : d ≠ 0)
    (hAc : alGet A "channel" = some ch) (hAu : alGet A "user" = some u)
    (hBc : alGet B "channel" = some ch) (hBu : alGet B "user" = some u)
    (hCc : alGet C "channel" = some ch) (hCu : alGet C "user" = some u)
    (hAt : alGet A "text" = some ta) (hBt : alGet B "text" = some tb)
    (hCt : alGet C "text" = some tc)
    (hsa : pyStrip ta = ta) (hna : ta ≠ "")
    (hsb : pyStrip tb = tb) (hnb : tb ≠ "")
    (hsc : pyStrip tc = tc) (hnc : tc ≠ "")
    (hfresh : alGet s0.accumulated (ch ++ ":" ++ u) = none) :
    (debounced_enqueue_message s0 A d).2 = [] ∧
    (debounced_enqueue_message (debounced_enqueue_message s0 A d).1 B d).2 = [] ∧
    (debounced_enqueue_message (debounced_enqueue_message
      (debounced_enqueue_message s0 A d).1 B d).1 C d).2 = [] ∧
    (delayed_process (burst3 s0 A B C d) (ch ++ ":" ++ u) (s0.nextTask + 2)).2.1 =
      [alSet A "text" (ta ++ "\n" ++ (tb ++ "\n" ++ tc))] ∧
    (∀ k', k' ≠ "text" →
      alGet (alSet A "text" (ta ++ "\n" ++ (tb ++ "\n" ++ tc))) k' = alGet A k') ∧
    alGet (delayed_process (burst3 s0 A B C d) (ch ++ ":" ++ u)
      (s0.nextTask + 2)).1.accumulated (ch ++ ":" ++ u) = none ∧
    alGet (delayed_process (burst3 s0 A B C d) (ch ++ ":" ++ u)
      (s0.nextTask + 2)).1.timers (ch ++ ":" ++ u) = none := by
  have hkA : debounceKey A = ch ++ ":" ++ u := by
    simp [debounceKey, hAc, hAu, pyStr]
  have hkB : debounceKey B = ch ++ ":" ++ u := by
    simp [debounceKey, hBc, hBu, pyStr]
  have hkC : debounceKey C = ch ++ ":" ++ u := by
    simp [debounceKey, hCc, hCu, pyStr]
  have e1 : debounced_enqueue_message s0 A d =
      ({ accumulated := alSet s0.accumulated (ch ++ ":" ++ u) [A],
         timers := alSet s0.timers (ch ++ ":" ++ u) s0.nextTask,
         nextTask := s0.nextTask + 1 }, []) := by
    simp only [debounced_enqueue_message, hd, hkA, hfresh, if_false]
  have e2 : debounced_enqueue_message (debounced_enqueue_message s0 A d).1 B d =
      ({ accumulated := alSet (alSet s0.accumulated (ch ++ ":" ++ u) [A])
           (ch ++ ":" ++ u) ([A] ++ [B]),
         timers := alSet (alSet s0.timers (ch ++ ":" ++ u) s0.nextTask)
           (ch ++ ":" ++ u) (s0.nextTask + 1),
         nextTask := s0.nextTask + 2 }, []) := by
    rw [e1]
    simp only [debounced_enqueue_message, hd, hkB, if_false, alGet_alSet_self]
  have e3 : burst3 s0 A B C d =
      { accumulated := alSet (alSet (alSet s0.accumulated (ch ++ ":" ++ u) [A])
          (ch ++ ":" ++ u) ([A] ++ [B])) (ch ++ ":" ++ u) (([A] ++ [B]) ++ [C]),
        timers := alSet (alSet (alSet s0.timers (ch ++ ":" ++ u) s0.nextTask)
          (ch ++ ":" ++ u) (s0.nextTask + 1)) (ch ++ ":" ++ u) (s0.nextTask + 2),
        nextTask := s0.nextTask + 3 } := by
    rw [burst3, e2]
    simp only [debounced_enqueue_message, hd, hkC, if_false, alGet_alSet_self]
  have hparts : (([A, B, C] : List Msg).map
      (fun m => pyStrip ((alGet m "text").getD ""))).filter (fun t => t ≠ "") =
      [ta, tb, tc] := by
    simp [hAt, hBt, hCt, hsa, hsb, hsc, hna, hnb, hnc]
  have ef : delayed_process (burst3 s0 A B C d) (ch ++ ":" ++ u) (s0.nextTask + 2) =
      ({ accumulated := alDel (burst3 s0 A B C d).accumulated (ch ++ ":" ++ u),
         timers := alDel (burst3 s0 A B C d).timers (ch ++ ":" ++ u),
         nextTask := s0.nextTask + 3 },
       [alSet A "text" (ta ++ "\n" ++ (tb ++ "\n" ++ tc))], []) := by
    rw [delayed_process]
    rw [show alGet (burst3 s0 A B C d).timers (ch ++ ":" ++ u) =
          some (s0.nextTask + 2) by rw [e3]; exact alGet_alSet_self _ _ _]
    rw [show alGet (burst3 s0 A B C d).accumulated (ch ++ ":" ++ u) =
          some ([A] ++ [B] ++ [C]) by rw [e3]; exact alGet_alSet_self _ _ _]
    simp only [if_pos, List.cons_append, List.nil_append]
    have hta : ¬ ([ta, tb, tc] = ([] : List String)) := by simp
    rw [hparts, if_neg hta, e3]
    simp [joinNewline]
  refine ⟨by rw [e1], by rw [e2], ?_, ?_, ?_, ?_, ?_⟩
  · show (debounced_enqueue_message (debounced_enqueue_message
      (debounced_enqueue_message s0 A d).1 B d).1 C d).2 = []
    rw [e2]
    simp only [debounced_enqueue_message, hd, hkC, if_false, alGet_alSet_self]
  · rw [ef]
  · exact fun k' hk' => alGet_alSet_ne A "text" k' _ hk'
  · rw [ef]
    exact alGet_alDel_self _ _
  · rw [ef]
    exact alGet_alDel_self _ _

/-- Witness for `debounce_merge_burst`: burst "a", "b", "c" on bucket
`C1:U1`. -/
theorem debounce_merge_burst_witness :
    (debounced_enqueue_message debInit
      [("channel", "C1"), ("user", "U1"), ("text", "a")] 2).2 = [] ∧
    (debounced_enqueue_message (debounced_enqueue_message debInit
      [("channel", "C1"), ("user", "U1"), ("text", "a")] 2).1
      [("channel", "C1"), ("user", "U1"), ("text", "b")] 2).2 = [] ∧
    (debounced_enqueue_message (debounced_enqueue_message
      (debounced_enqueue_message debInit
        [("channel", "C1"), ("user", "U1"), ("text", "a")] 2).1
      [("channel", "C1"), ("user", "U1"), ("text", "b")] 2).1
      [("channel", "C1"), ("user", "U1"), ("text", "c")] 2).2 = [] ∧
    (delayed_process (burst3 debInit
      [("channel", "C1"), ("user", "U1"), ("text", "a")]
      [("channel", "C1"), ("user", "U1"), ("text", "b")]
      [("channel", "C1"), ("user", "U1"), ("text", "c")] 2)
      ("C1" ++ ":" ++ "U1") (debInit.nextTask + 2)).2.1 =
      [alSet [("channel", "C1"), ("user", "U1"), ("text", "a")] "text"
        ("a" ++ "\n" ++ ("b" ++ "\n" ++ "c"))] ∧
    (∀ k', k' ≠ "text" →
      alGet (alSet [("channel", "C1"), ("user", "U1"), ("text", "a")] "text"
        ("a" ++ "\n" ++ ("b" ++ "\n" ++ "c"))) k' =
      alGet [("channel", "C1"), ("user", "U1"), ("text", "a")] k') ∧
    alGet (delayed_process (burst3 debInit
      [("channel", "C1"), ("user", "U1"), ("text", "a")]
      [("channel", "C1"), ("user", "U1"), ("text", "b")]
      [("channel", "C1"), ("user", "U1"), ("text", "c")] 2)
      ("C1" ++ ":" ++ "U1") (debInit.nextTask + 2)).1.accumulated
      ("C1" ++ ":" ++ "U1") = none ∧
    alGet (delayed_process (burst3 debInit
      [("channel", "C1"), ("user", "U1"), ("text", "a")]
      [("channel", "C1"), ("user", "U1"), ("text", "b")]
      [("channel", "C1"), ("user", "U1"), ("text", "c")] 2)
      ("C1" ++ ":" ++ "U1") (debInit.nextTask + 2)).1.timers
      ("C1" ++ ":" ++ "U1") = none :=
  debounce_merge_burst debInit
    [("channel", "C1"), ("user", "U1"), ("text", "a")]
    [("channel", "C1"), ("user", "U1"), ("text", "b")]
    [("channel", "C1"), ("user", "U1"), ("text", "c")]
    "C1" "U1" "a" "b" "c" 2
    (by decide) (by decide) (by decide) (by decide) (by decide) (by decide)
    (by decide) (by decide) (by decide) (by decide) (by decide) (by decide)
    (by decide) (by decide) (by decide) (by decide) (by decide)

/-! ## Channel queue registry -/

/-- A job as placed on a channel queue: `queue.put({"message": message})`. -/
structure ChannelJob where
  message : Msg
deriving DecidableEq

/-- An `asyncio.Queue(maxsize=100)`: capacity fixed at creation plus the
current items in FIFO order. -/
structure PyQueue where
  capacity : Nat
  items : List ChannelJob
deriving DecidableEq

/-- State of the registry: `message_queues` maps channel ids to queue ids,
`store` maps queue ids to queue values.  Distinct queue ids model distinct
`asyncio.Queue` object identities, so "same queue instance" is "same id". -/
structure RegState where
  message_queues : List (Option String × Nat)
  store : List (Nat × PyQueue)
  nextQid : Nat
deriving DecidableEq

/-- The registry at module load: both dicts empty. -/
def regInit : RegState := ⟨[], [], 0⟩

/-- `get_or_create_channel_queue(channel_id)`: return the existing queue for
the key, or create a fresh `asyncio.Queue(maxsize=100)` and register it. -/
def get_or_create_channel_queue (s : RegState) (channel_id : Option String) :
    RegState × Nat :=
  match alGet s.message_queues channel_id with
  | some qid => (s, qid)
  | none =>
    ({ message_queues := alSet s.message_queues channel_id s.nextQid,
       store := alSet s.store s.nextQid ⟨100, []⟩,
       nextQid := s.nextQid + 1 }, s.nextQid)

/-- `await queue.put(item)`: appends when below capacity; on a full queue the
caller suspends (backpressure), modelled by the unchanged queue and `false`. -/
def queue_put (q : PyQueue) (j : ChannelJob) : PyQueue × Bool :=
  if q.items.length < q.capacity then ({ q with items := q.items ++ [j] }, true)
  else (q, false)

/-- `enqueue_message(message)`: route by `message.get("channel")`, get or
create the channel queue, put the wrapped job.  Returns the new state, the
queue id used, and whether the put completed without suspending. -/
def enqueue_message (s : RegState) (m : Msg) : RegState × Nat × Bool :=
  let channel_id := alGet m "channel"
  let r := get_or_create_channel_queue s channel_id
  match alGet r.1.store r.2 with
  | none => (r.1, r.2, false)
  | some q =>
    let p := queue_put q ⟨m⟩
    ({ r.1 with store := alSet r.1.store r.2 p.1 }, r.2, p.2)

/-- A channel worker's `queue.get()` on channel `cid`: pops the head job (a
get on an empty queue suspends, leaving the state unchanged). -/
def worker_get (s : RegState) (cid : Option String) : RegState :=
  match alGet s.message_queues cid with
  | none => s
  | some qid =>
    match alGet s.store qid with
    | none => s
    | some q =>
      match q.items with
      | [] => s
      | _ :: rest => { s with store := alSet s.store qid { q with items := rest } }

/-- The operations the module ever performs on the registry. -/
inductive RegOp where
  | getOrCreate (cid : Option String)
  | enqueue (m : Msg)
  | workerGet (cid : Option String)

def applyRegOp (s : RegState) : RegOp → RegState
  | .getOrCreate cid => (get_or_create_channel_queue s cid).1
  | .enqueue m => (enqueue_message s m).1
  | .workerGet cid => worker_get s cid

def applyRegOps (s : RegState) (ops : List RegOp) : RegState :=
  ops.foldl applyRegOp s

/-- Queue-id freshness: every queue id in the store is below `nextQid`. -/
def RegWF (s : RegState) : Prop :=
  ∀ p ∈ s.store, p.1 < s.nextQid

theorem alGet_some_mem {κ α : Type} [DecidableEq κ] (l : List (κ × α)) (k : κ)
    (v : α) (h : alGet l k = some v) : (k, v) ∈ l := by
  induction l with
  | nil => cases h
  | cons p t ih =>
    obtain ⟨k', v'⟩ := p
    by_cases hk : k' = k
    · subst hk
      rw [alGet, if_pos rfl] at h
      obtain rfl : v' = v := by injection h
      exact List.mem_cons_self _ _
    · rw [alGet, if_neg hk] at h
      exact List.mem_cons_of_mem _ (ih h)

theorem mem_alSet {κ α : Type} [DecidableEq κ] (l : List (κ × α)) (k : κ) (v : α)
    (p : κ × α) (h : p ∈ alSet l k v) : p = (k, v) ∨ p ∈ l := by
  induction l with
  | nil =>
    simp [alSet] at h
    exact Or.inl h
  | cons hd t ih =>
    obtain ⟨k₀, v₀⟩ := hd
    by_cases hk : k₀ = k
    · subst hk
      rw [alSet, if_pos rfl] at h
      rcases List.mem_cons.mp h with h1 | h1
      · exact Or.inl h1
      · exact Or.inr (List.mem_cons_of_mem _ h1)
    · rw [alSet, if_neg hk] at h
      rcases List.mem_cons.mp h with h1 | h1
      · exact Or.inr (h1 ▸ List.mem_cons_self _ _)
      · rcases ih h1 with h2 | h2
        · exact Or.inl h2
        · exact Or.inr (List.mem_cons_of_mem _ h2)

theorem queue_put_capacity (q : PyQueue) (j : ChannelJob) :
    (queue_put q j).1.capacity = q.capacity := by
  rw [queue_put]
  split <;> rfl

theorem regWF_goc (s : RegState) (cid : Option String) (hwf : RegWF s) :
    RegWF (get_or_create_channel_queue s cid).1 := by
  rcases hmq : alGet s.message_queues cid with _ | qid <;>
    simp only [get_or_create_channel_queue, hmq]
  · intro p hp
    simp only at hp
    rcases mem_alSet _ _ _ _ hp with h1 | h1
    · subst h1
      exact Nat.lt_succ_self _
    · exact Nat.lt_succ_of_lt (hwf p h1)
  · exact hwf

theorem regWF_enqueue (s : RegState) (m : Msg) (hwf : RegWF s) :
    RegWF (enqueue_message s m).1 := by
  have h1 : RegWF (get_or_create_channel_queue s (alGet m "channel")).1 :=
    regWF_goc s _ hwf
  rcases hst : alGet (get_or_create_channel_queue s (alGet m "channel")).1.store
      (get_or_create_channel_queue s (alGet m "channel")).2 with _ | q <;>
    simp only [enqueue_message, hst]
  · exact h1
  · intro p hp
    simp only at hp
    rcases mem_alSet _ _ _ _ hp with he | he
    · subst he
      exact h1 ((get_or_create_channel_queue s (alGet m "channel")).2, q)
        (alGet_some_mem _ _ _ hst)
    · exact h1 p he

theorem regWF_workerGet (s : RegState) (cid : Option String) (hwf : RegWF s) :
    RegWF (worker_get s cid) := by
  rcases hmq : alGet s.message_queues cid with _ | qid <;>
    simp only [worker_get, hmq]
  · exact hwf
  · rcases hst : alGet s.store qid with _ | q <;> simp only [hst]
    · exact hwf
    · rcases hitems : q.items with _ | ⟨j, rest⟩ <;> simp only [hitems]
      · exact hwf
      · intro p hp
        simp only at hp
        rcases mem_alSet _ _ _ _ hp with h1 | h1
        · subst h1
          exact hwf (qid, q) (alGet_some_mem _ _ _ hst)
        · exact hwf p h1

theorem regWF_step (s : RegState) (op : RegOp) (hwf : RegWF s) :
    RegWF (applyRegOp s op) := by
  cases op with
  | getOrCreate cid => exact regWF_goc s cid hwf
  | enqueue m => exact regWF_enqueue s m hwf
  | workerGet cid => exact regWF_workerGet s cid hwf

/-- One registry operation never removes a channel's mapping and never
changes the capacity of its queue. -/
theorem reg_entry_step (s : RegState) (op : RegOp) (cid : Option String)
    (qid : Nat) (q : PyQueue) (hwf : RegWF s)
    (hmap : alGet s.message_queues cid = some qid)
    (hq : alGet s.store qid = some q) :
    alGet (applyRegOp s op).message_queues cid = some qid ∧
    ∃ q', alGet (applyRegOp s op).store qid = some q' ∧ q'.capacity = q.capacity := by
  have hqlt : qid < s.nextQid := hwf (qid, q) (alGet_some_mem _ _ _ hq)
  cases op with
  | getOrCreate cid' =>
    simp only [applyRegOp]
    rcases hmq : alGet s.message_queues cid' with _ | qid' <;>
      simp only [get_or_create_channel_queue, hmq]
    · have hne : cid ≠ cid' := by
        intro hc
        rw [hc, hmq] at hmap
        cases hmap
      have hqne : qid ≠ s.nextQid := Nat.ne_of_lt hqlt
      refine ⟨?_, q, ?_, rfl⟩
      · rw [alGet_alSet_ne _ _ _ _ hne]
        exact hmap
      · rw [alGet_alSet_ne _ _ _ _ hqne]
        exact hq
    · exact ⟨hmap, q, hq, rfl⟩
  | enqueue m =>
    simp only [applyRegOp]
    rcases hmq : alGet s.message_queues (alGet m "channel") with _ | qid₀
    · -- fresh channel key: a new queue is created at nextQid
      have hgoc : get_or_create_channel_queue s (alGet m "channel") =
          ({ message_queues := alSet s.message_queues (alGet m "channel") s.nextQid,
             store := alSet s.store s.nextQid ⟨100, []⟩,
             nextQid := s.nextQid + 1 }, s.nextQid) := by
        simp only [get_or_create_channel_queue, hmq]
      have hne : cid ≠ alGet m "channel" := by
        intro hc
        rw [hc, hmq] at hmap
        cases hmap
      have hqne : qid ≠ s.nextQid := Nat.ne_of_lt hqlt
      rcases hst : alGet (get_or_create_channel_queue s (alGet m "channel")).1.store
          (get_or_create_channel_queue s (alGet m "channel")).2 with _ | q₀ <;>
        simp only [enqueue_message, hst]
      · rw [hgoc]
        refine ⟨?_, q, ?_, rfl⟩
        · rw [alGet_alSet_ne _ _ _ _ hne]
          exact hmap
        · rw [alGet_alSet_ne _ _ _ _ hqne]
          exact hq
      · rw [hgoc] at hst ⊢
        simp only at hst ⊢
        refine ⟨?_, q, ?_, rfl⟩
        · rw [alGet_alSet_ne _ _ _ _ hne]
          exact hmap
        · rw [alGet_alSet_ne _ _ _ _ hqne, alGet_alSet_ne _ _ _ _ hqne]
          exact hq
    · -- existing channel key: only that queue's items may change
      have hgoc : get_or_create_channel_queue s (alGet m "channel") = (s, qid₀) := by
        simp only [get_or_create_channel_queue, hmq]
      rcases hst : alGet (get_or_create_channel_queue s (alGet m "channel")).1.store
          (get_or_create_channel_queue s (alGet m "channel")).2 with _ | q₀ <;>
        simp only [enqueue_message, hst]
      · rw [hgoc]
        exact ⟨hmap, q, hq, rfl⟩
      · rw [hgoc] at hst ⊢
        simp only at hst ⊢
        refine ⟨hmap, ?_⟩
        by_cases hqeq : qid = qid₀
        · subst hqeq
          rw [hst] at hq
          have hq0 : q₀ = q := by injection hq
          exact ⟨(queue_put q₀ ⟨m⟩).1, alGet_alSet_self _ _ _,
            (queue_put_capacity q₀ ⟨m⟩).trans (congrArg PyQueue.capacity hq0)⟩
        · exact ⟨q, by rw [alGet_alSet_ne _ _ _ _ hqeq]; exact hq, rfl⟩
  | workerGet cid' =>
    simp only [applyRegOp]
    rcases hmq : alGet s.message_queues cid' with _ | qid' <;>
      simp only [worker_get, hmq]
    · exact ⟨hmap, q, hq, rfl⟩
    · rcases hst : alGet s.store qid' with _ | q₀ <;> simp only [hst]
      · exact ⟨hmap, q, hq, rfl⟩
      · rcases hitems : q₀.items with _ | ⟨j, rest⟩ <;> simp only [hitems]
        · exact ⟨hmap, q, hq, rfl⟩
        · refine ⟨hmap, ?_⟩
          by_cases hqeq : qid = qid'
          · subst hqeq
            rw [hst] at hq
            have hq0 : q₀ = q := by injection hq
            exact ⟨⟨q₀.capacity, rest⟩, alGet_alSet_self _ _ _, by rw [← hq0]⟩
          · exact ⟨q, by rw [alGet_alSet_ne _ _ _ _ hqeq]; exact hq, rfl⟩

/-- Over any sequence of registry operations, a channel's mapping to its
queue id persists and that queue's capacity never changes. -/
theorem reg_entry_ops (ops : List RegOp) (s : RegState) (cid : Option String)
    (qid : Nat) (q : PyQueue) (hwf : RegWF s)
    (hmap : alGet s.message_queues cid = some qid)
    (hq : alGet s.store qid = some q) :
    alGet (applyRegOps s ops).message_queues cid = some qid ∧
    ∃ q', alGet (applyRegOps s ops).store qid = some q' ∧
      q'.capacity = q.capacity := by
  induction ops generalizing s q with
  | nil => exact ⟨hmap, q, hq, rfl⟩
  | cons op rest ih =>
    obtain ⟨hmap', q', hq', hcap⟩ := reg_entry_step s op cid qid q hwf hmap hq
    obtain ⟨hmap'', q'', hq'', hcap'⟩ :=
      ih (applyRegOp s op) q' (regWF_step s op hwf) hmap' hq'
    exact ⟨hmap'', q'', hq'', hcap'.trans hcap⟩

/-- Claim C9: `get_or_create_channel_queue` is idempotent — a second call
with the same key returns the same queue id and leaves the registry
unchanged — a freshly created queue has capacity 100 (and is empty), and
across any sequence of registry operations an existing key's mapping
persists and its queue's capacity never changes. -/
theorem get_or_create_channel_queue_idempotent :
    (∀ s cid, get_or_create_channel_queue
        (get_or_create_channel_queue s cid).1 cid =
      ((get_or_create_channel_queue s cid).1,
        (get_or_create_channel_queue s cid).2)) ∧
    (∀ s cid, alGet s.message_queues cid = none →
      alGet (get_or_create_channel_queue s cid).1.store
        (get_or_create_channel_queue s cid).2 = some ⟨100, []⟩) ∧
    (∀ ops s cid qid q, RegWF s →
      alGet s.message_queues cid = some qid →
      alGet s.store qid = some q →
      alGet (applyRegOps s ops).message_queues cid = some qid ∧
      ∃ q', alGet (applyRegOps s ops).store qid = some q' ∧
        q'.capacity = q.capacity) := by
  refine ⟨?_, ?_, fun ops s cid qid q => reg_entry_ops ops s cid qid q⟩
  · intro s cid
    rcases hmq : alGet s.message_queues cid with _ | qid
    · simp only [get_or_create_channel_queue, hmq, alGet_alSet_self]
    · simp only [get_or_create_channel_queue, hmq]
  · intro s cid hmq
    simp only [get_or_create_channel_queue, hmq, alGet_alSet_self]

/-- Witness for `get_or_create_channel_queue_idempotent` on a concrete
registry holding one queue and a concrete operation sequence. -/
theorem get_or_create_channel_queue_idempotent_witness :
    alGet (applyRegOps ⟨[(some "C1", 0)], [(0, ⟨100, []⟩)], 1⟩
      [RegOp.enqueue [("channel", "C1"), ("text", "hi")],
       RegOp.getOrCreate (some "C2"),
       RegOp.workerGet (some "C1")]).message_queues (some "C1") = some 0 ∧
    ∃ q', alGet (applyRegOps ⟨[(some "C1", 0)], [(0, ⟨100, []⟩)], 1⟩
      [RegOp.enqueue [("channel", "C1"), ("text", "hi")],
       RegOp.getOrCreate (some "C2"),
       RegOp.workerGet (some "C1")]).store 0 = some q' ∧
      q'.capacity = (⟨100, []⟩ : PyQueue).capacity :=
  get_or_create_channel_queue_idempotent.2.2
    [RegOp.enqueue [("channel", "C1"), ("text", "hi")],
     RegOp.getOrCreate (some "C2"),
     RegOp.workerGet (some "C1")]
    ⟨[(some "C1", 0)], [(0, ⟨100, []⟩)], 1⟩ (some "C1") 0 ⟨100, []⟩
    (by unfold RegWF; decide) (by decide) (by decide)

/-- Claim C10: a payload whose `channel` field is absent routes to the queue
registered under the `None` key without raising: the mapping for `None`
exists afterwards and points at the queue used, any further channel-less
payload routes to that same queue, and on first such call the queue is
created with capacity 100 and receives the job. -/
theorem enqueue_message_no_channel (s : RegState) (m m' : Msg)
    (hm : alGet m "channel" = none) (hm' : alGet m' "channel" = none) :
    alGet (enqueue_message s m).1.message_queues none =
      some (enqueue_message s m).2.1 ∧
    (enqueue_message (enqueue_message s m).1 m').2.1 =
      (enqueue_message s m).2.1 ∧
    (alGet s.message_queues none = none →
      alGet (enqueue_message s m).1.store (enqueue_message s m).2.1 =
        some ⟨100, [⟨m⟩]⟩) := by
  rcases hmq : alGet s.message_queues none with _ | qid₀
  · -- first channel-less payload: queue created under the None key
    have hgoc : get_or_create_channel_queue s none =
        ({ message_queues := alSet s.message_queues none s.nextQid,
           store := alSet s.store s.nextQid ⟨100, []⟩,
           nextQid := s.nextQid + 1 }, s.nextQid) := by
      simp only [get_or_create_channel_queue, hmq]
    have he : enqueue_message s m =
        ({ message_queues := alSet s.message_queues none s.nextQid,
           store := alSet (alSet s.store s.nextQid ⟨100, []⟩) s.nextQid
             ⟨100, [⟨m⟩]⟩,
           nextQid := s.nextQid + 1 }, s.nextQid, true) := by
      simp [enqueue_message, hm, hgoc, alGet_alSet_self, queue_put]
    rw [he]
    refine ⟨alGet_alSet_self _ _ _, ?_, fun _ => alGet_alSet_self _ _ _⟩
    simp only [enqueue_message, hm', get_or_create_channel_queue,
      alGet_alSet_self]
  · -- the None key already has a queue: both payloads route to it
    have hgoc : get_or_create_channel_queue s none = (s, qid₀) := by
      simp only [get_or_create_channel_queue, hmq]
    rcases hst : alGet s.store qid₀ with _ | q₀
    · have he : enqueue_message s m = (s, qid₀, false) := by
        simp only [enqueue_message, hm, hgoc, hst]
      rw [he]
      refine ⟨hmq, ?_, fun hc => absurd hc (by simp [hmq])⟩
      simp only [enqueue_message, hm', hgoc, hst]
    · have he : enqueue_message s m =
          ({ s with store := alSet s.store qid₀ (queue_put q₀ ⟨m⟩).1 },
            qid₀, (queue_put q₀ ⟨m⟩).2) := by
        simp only [enqueue_message, hm, hgoc, hst]
      rw [he]
      refine ⟨hmq, ?_, fun hc => absurd hc (by simp [hmq])⟩
      have hgoc' : get_or_create_channel_queue
          ({ s with store := alSet s.store qid₀ (queue_put q₀ ⟨m⟩).1 }) none =
          ({ s with store := alSet s.store qid₀ (queue_put q₀ ⟨m⟩).1 }, qid₀) := by
        simp only [get_or_create_channel_queue, hmq]
      rcases hst' : alGet (alSet s.store qid₀ (queue_put q₀ ⟨m⟩).1) qid₀ with _ | qq <;>
        simp only [enqueue_message, hm', hgoc', hst']

/-- Witness for `enqueue_message_no_channel`: two channel-less payloads into
the empty registry. -/
theorem enqueue_message_no_channel_witness :
    alGet (enqueue_message regInit [("text", "hello")]).1.message_queues none =
      some (enqueue_message regInit [("text", "hello")]).2.1 ∧
    (enqueue_message (enqueue_message regInit [("text", "hello")]).1
      [("user", "U1")]).2.1 = (enqueue_message regInit [("text", "hello")]).2.1 ∧
    (alGet regInit.message_queues none = none →
      alGet (enqueue_message regInit [("text", "hello")]).1.store
        (enqueue_message regInit [("text", "hello")]).2.1 =
        some ⟨100, [⟨[("text", "hello")]⟩]⟩) :=
  enqueue_message_no_channel regInit [("text", "hello")] [("user", "U1")]
    (by decide) (by decide)

/-! ## Channel workers: failure isolation (claim C7) -/

/-- Outcome of one invocation of an injected processing function: it either
returns normally or raises an exception carrying a message. -/
inductive ProcResult where
  | ok
  | raised (e : String)
deriving DecidableEq

/-- What one iteration of the `channel_worker` loop leaves behind: the job it
dequeued, the error text logged by the `except` branch (if the processing
function raised), and whether `queue.task_done()` ran (the `finally` block). -/
structure WorkerLogEntry where
  job : Msg
  errorLogged : Option String
  taskDone : Bool
deriving DecidableEq

/-- The `channel_worker` loop body iterated over a queue's jobs in FIFO
order: dequeue, invoke `process_func` inside `try`, log any exception in
`except` without re-raising, run `queue.task_done()` in `finally`, then loop
to the next job. -/
def channel_worker (process_func : Msg → ProcResult) :
    List Msg → List WorkerLogEntry
  | [] => []
  | j :: rest =>
    (match process_func j with
     | .ok => ⟨j, none, true⟩
     | .raised e => ⟨j, some e, true⟩) :: channel_worker process_func rest

/-- The error the except branch records for a given invocation outcome. -/
def loggedError : ProcResult → Option String
  | .ok => none
  | .raised e => some e

theorem channel_worker_jobs (process_func : Msg → ProcResult) (jobs : List Msg) :
    (channel_worker process_func jobs).map (fun en => en.job) = jobs := by
  induction jobs with
  | nil => rfl
  | cons j rest ih =>
    rw [channel_worker]
    rcases process_func j with _ | e <;> simp [ih]

/-- Claim C7: every job in a queue is dequeued and attempted exactly once,
in order, regardless of which invocations raise; a raised exception is
caught at the loop boundary (it appears only as a log entry), `task_done`
always runs, and the same holds independently for every queue in the
registry, so a failure on one job blocks neither later jobs of its queue nor
other queues. -/
theorem channel_worker_failure_isolation (process_func : Msg → ProcResult)
    (jobs : List Msg) (queues : List (List Msg)) :
    (channel_worker process_func jobs).map (fun en => en.job) = jobs ∧
    (∀ en ∈ channel_worker process_func jobs,
      en.taskDone = true ∧ en.errorLogged = loggedError (process_func en.job)) ∧
    (queues.map (fun q => (channel_worker process_func q).map (fun en => en.job)))
      = queues := by
  refine ⟨channel_worker_jobs process_func jobs, ?_, ?_⟩
  · intro en hen
    induction jobs with
    | nil => cases hen
    | cons j rest ih =>
      rw [channel_worker] at hen
      rcases List.mem_cons.mp hen with h1 | h1
      · subst h1
        rcases hpj : process_func j with _ | e <;>
          simp [hpj, loggedError]
      · exact ih h1
  · induction queues with
    | nil => rfl
    | cons q rest ih =>
      simp [channel_worker_jobs process_func q, ih]

/-- Witness for `channel_worker_failure_isolation`: a queue whose middle job
raises, and a second queue behind it. -/
theorem channel_worker_failure_isolation_witness :
    (channel_worker
        (fun m => if alGet m "text" = some "boom" then
          ProcResult.raised "boom" else ProcResult.ok)
        [[("text", "ok1")], [("text", "boom")], [("text", "ok2")]]).map
      (fun en => en.job) =
      [[("text", "ok1")], [("text", "boom")], [("text", "ok2")]] ∧
    (∀ en ∈ channel_worker
        (fun m => if alGet m "text" = some "boom" then
          ProcResult.raised "boom" else ProcResult.ok)
        [[("text", "ok1")], [("text", "boom")], [("text", "ok2")]],
      en.taskDone = true ∧
      en.errorLogged = loggedError
        ((fun m => if alGet m "text" = some "boom" then
          ProcResult.raised "boom" else ProcResult.ok) en.job)) ∧
    (([[[("text", "other")]], [[("text", "boom")]]] :
        List (List Msg)).map (fun q =>
      (channel_worker
        (fun m => if alGet m "text" = some "boom" then
          ProcResult.raised "boom" else ProcResult.ok) q).map
        (fun en => en.job))) =
      [[[("text", "other")]], [[("text", "boom")]]] :=
  channel_worker_failure_isolation
    (fun m => if alGet m "text" = some "boom" then
      ProcResult.raised "boom" else ProcResult.ok)
    [[("text", "ok1")], [("text", "boom")], [("text", "ok2")]]
    [[[("text", "other")]], [[("text", "boom")]]]

/-! ## Sequential writer lane (memory worker, claim C6)

The single `memory_worker` task drains `memory_queue`.  Job identities are
distinct naturals (distinct Python job objects).  The observable history is
a log of enqueue, invocation-start and invocation-finish events; producer
steps and worker steps interleave arbitrarily. -/

open List

inductive MemEvent where
  | enq (j : Nat)
  | start (j : Nat)
  | finish (j : Nat)
deriving DecidableEq

/-- The worker is either awaiting `memory_queue.get()` or inside an
invocation of `memory_func` on job `j` (whether it will return or raise is
irrelevant: the `finally` runs either way and the loop continues). -/
inductive MemPC where
  | waiting
  | working (j : Nat)
deriving DecidableEq

structure MemState where
  queue : List Nat
  pc : MemPC
  log : List MemEvent
deriving DecidableEq

def enqId : MemEvent → Option Nat
  | .enq j => some j
  | _ => none

def startId : MemEvent → Option Nat
  | .start j => some j
  | _ => none

def finId : MemEvent → Option Nat
  | .finish j => some j
  | _ => none

def enqIds (log : List MemEvent) : List Nat := log.filterMap enqId

def startIds (log : List MemEvent) : List Nat := log.filterMap startId

def finIds (log : List MemEvent) : List Nat := log.filterMap finId

/-- The start/finish subsequence of the log (enqueues dropped). -/
def sfEvents (log : List MemEvent) : List MemEvent :=
  log.filter (fun e => match e with | .enq _ => false | _ => true)

/-- Scheduler choices: a producer enqueues a fresh job (suspending instead
when the bounded queue is full), the worker dequeues the head job and begins
`memory_func`, or the current invocation completes (normally or by a caught
exception). -/
inductive MemStep where
  | produce (j : Nat)
  | take
  | complete

def memStep (s : MemState) : MemStep → Option MemState
  | .produce j =>
    if j ∈ enqIds s.log ∨ 100 ≤ s.queue.length then none
    else some ⟨s.queue ++ [j], s.pc, s.log ++ [MemEvent.enq j]⟩
  | .take =>
    match s.pc, s.queue with
    | .waiting, j :: rest => some ⟨rest, .working j, s.log ++ [MemEvent.start j]⟩
    | _, _ => none
  | .complete =>
    match s.pc with
    | .working j => some ⟨s.queue, .waiting, s.log ++ [MemEvent.finish j]⟩
    | .waiting => none

def memInit : MemState := ⟨[], .waiting, []⟩

inductive MemReach : MemState → MemState → Prop
  | refl (s : MemState) : MemReach s s
  | tail {a b c : MemState} {e : MemStep} :
      MemReach a b → memStep b e = some c → MemReach a c

theorem memReach_head {a b c : MemState} {e : MemStep}
    (h : memStep a e = some b) (hr : MemReach b c) : MemReach a c := by
  induction hr with
  | refl => exact MemReach.tail (MemReach.refl a) h
  | tail hr hstep ih => exact MemReach.tail ih hstep

def memRun (s : MemState) : List MemStep → Option MemState
  | [] => some s
  | e :: rest =>
    match memStep s e with
    | none => none
    | some s' => memRun s' rest

theorem memRun_reach (events : List MemStep) (s s' : MemState)
    (h : memRun s events = some s') : MemReach s s' := by
  induction events generalizing s with
  | nil =>
    rw [memRun] at h
    obtain rfl : s = s' := by injection h
    exact MemReach.refl s
  | cons e rest ih =>
    rw [memRun] at h
    rcases hs : memStep s e with _ | s₁ <;> rw [hs] at h
    · cases h
    · exact memReach_head hs (ih s₁ h)

/-- The start/finish trace of a fully completed prefix: each job's start is
immediately followed by its finish. -/
def weave : List Nat → List MemEvent
  | [] => []
  | j :: t => MemEvent.start j :: MemEvent.finish j :: weave t

/-- No two invocations overlap: starts and finishes strictly alternate and
each finish matches the preceding start. -/
def sfAlternating : List MemEvent → Bool
  | [] => true
  | [MemEvent.start _] => true
  | MemEvent.start j :: MemEvent.finish j' :: rest =>
      j == j' && sfAlternating rest
  | _ => false

theorem weave_append (l : List Nat) (j : Nat) :
    weave (l ++ [j]) = weave l ++ [MemEvent.start j, MemEvent.finish j] := by
  induction l with
  | nil => rfl
  | cons x t ih => simp [weave, ih]

theorem sfAlternating_weave (l : List Nat) : sfAlternating (weave l) = true := by
  induction l with
  | nil => rfl
  | cons x t ih => simp [weave, sfAlternating, ih]

theorem sfAlternating_weave_start (l : List Nat) (j : Nat) :
    sfAlternating (weave l ++ [MemEvent.start j]) = true := by
  induction l with
  | nil => rfl
  | cons x t ih => simp [weave, sfAlternating, ih]

theorem start_mem_weave (l : List Nat) (j : Nat) (h : j ∈ l) :
    MemEvent.start j ∈ weave l := by
  induction l with
  | nil => cases h
  | cons x t ih =>
    rcases List.mem_cons.mp h with h1 | h1
    · subst h1
      exact List.mem_cons_self _ _
    · exact List.mem_cons_of_mem _ (List.mem_cons_of_mem _ (ih h1))

theorem finish_mem_weave (l : List Nat) (j : Nat) (h : j ∈ l) :
    MemEvent.finish j ∈ weave l := by
  induction l with
  | nil => cases h
  | cons x t ih =>
    rcases List.mem_cons.mp h with h1 | h1
    · subst h1
      exact List.mem_cons_of_mem _ (List.mem_cons_self _ _)
    · exact List.mem_cons_of_mem _ (List.mem_cons_of_mem _ (ih h1))

theorem pair_sublist_weave (l : List Nat) (a b : Nat)
    (h : [a, b] <+ l) : [MemEvent.finish a, MemEvent.start b] <+ weave l := by
  induction l with
  | nil => cases h
  | cons x t ih =>
    cases h with
    | cons _ h' =>
      exact ((ih h').cons (MemEvent.finish x)).cons (MemEvent.start x)
    | cons₂ _ h' =>
      have hb : MemEvent.start b ∈ weave t :=
        start_mem_weave t b (List.singleton_sublist.mp h')
      exact (((List.singleton_sublist.mpr hb).cons₂
        (MemEvent.finish a)).cons (MemEvent.start a))

theorem pair_sublist_left {l₁ l₂ : List Nat} {a b : Nat}
    (hnd : (l₁ ++ l₂).Nodup) (h : [a, b] <+ l₁ ++ l₂) (hb : b ∈ l₁) :
    [a, b] <+ l₁ := by
  induction l₁ with
  | nil => cases hb
  | cons x t ih =>
    rw [List.cons_append] at h
    have hx : x ∉ t ++ l₂ := by
      rw [List.cons_append] at hnd
      exact (List.nodup_cons.mp hnd).1
    cases h with
    | cons _ h' =>
      rcases List.mem_cons.mp hb with h1 | h1
      · subst h1
        have : b ∈ t ++ l₂ := (h'.subset) (by simp)
        exact absurd this hx
      · exact (ih ((List.nodup_cons.mp (by rwa [List.cons_append] at hnd)).2)
          h' h1).cons x
    | cons₂ _ h' =>
      have hbm : b ∈ t ++ l₂ := List.singleton_sublist.mp h'
      rcases List.mem_cons.mp hb with h1 | h1
      · subst h1
        exact absurd hbm hx
      · exact (List.singleton_sublist.mpr h1).cons₂ a

theorem pair_sublist_concat {l : List Nat} {a b x : Nat}
    (h : [a, b] <+ l ++ [x]) : [a, b] <+ l ∨ (b = x ∧ a ∈ l) := by
  induction l with
  | nil =>
    have := h.length_le
    simp at this
  | cons y t ih =>
    rw [List.cons_append] at h
    cases h with
    | cons _ h' =>
      rcases ih h' with h1 | ⟨h1, h2⟩
      · exact Or.inl (h1.cons y)
      · exact Or.inr ⟨h1, List.mem_cons_of_mem _ h2⟩
    | cons₂ _ h' =>
      rcases List.mem_append.mp (List.singleton_sublist.mp h') with h1 | h1
      · exact Or.inl ((List.singleton_sublist.mpr h1).cons₂ a)
      · simp at h1
        exact Or.inr ⟨h1, List.mem_cons_self _ _⟩

/-- Invariant of the single-worker lane: enqueued ids are distinct; the
enqueue order is the started order followed by the pending queue; the
started order is the finished order plus the in-flight job; and the
start/finish trace is a sequence of immediately-completed runs, plus the
in-flight start. -/
structure MemInv (s : MemState) : Prop where
  nodup : (enqIds s.log).Nodup
  qsplit : enqIds s.log = startIds s.log ++ s.queue
  runs : startIds s.log = finIds s.log ++
    (match s.pc with | .waiting => [] | .working j => [j])
  sf : sfEvents s.log = weave (finIds s.log) ++
    (match s.pc with | .waiting => [] | .working j => [MemEvent.start j])

theorem memInv_init : MemInv memInit :=
  ⟨List.nodup_nil, rfl, rfl, rfl⟩

theorem enqIds_append (log : List MemEvent) (e : MemEvent) :
    enqIds (log ++ [e]) = enqIds log ++ (enqId e).toList := by
  cases he : enqId e <;>
    simp [enqIds, List.filterMap_append, List.filterMap_cons, he, Option.toList]

theorem startIds_append (log : List MemEvent) (e : MemEvent) :
    startIds (log ++ [e]) = startIds log ++ (startId e).toList := by
  cases he : startId e <;>
    simp [startIds, List.filterMap_append, List.filterMap_cons, he, Option.toList]

theorem finIds_append (log : List MemEvent) (e : MemEvent) :
    finIds (log ++ [e]) = finIds log ++ (finId e).toList := by
  cases he : finId e <;>
    simp [finIds, List.filterMap_append, List.filterMap_cons, he, Option.toList]

theorem sfEvents_append_enq (log : List MemEvent) (j : Nat) :
    sfEvents (log ++ [MemEvent.enq j]) = sfEvents log := by
  simp [sfEvents, List.filter_append]

theorem sfEvents_append_start (log : List MemEvent) (j : Nat) :
    sfEvents (log ++ [MemEvent.start j]) = sfEvents log ++ [MemEvent.start j] := by
  simp [sfEvents, List.filter_append]

theorem sfEvents_append_finish (log : List MemEvent) (j : Nat) :
    sfEvents (log ++ [MemEvent.finish j]) = sfEvents log ++ [MemEvent.finish j] := by
  simp [sfEvents, List.filter_append]

theorem memInv_step (s s' : MemState) (e : MemStep) (hinv : MemInv s)
    (h : memStep s e = some s') : MemInv s' := by
  cases e with
  | produce j =>
    rw [memStep] at h
    split at h
    · cases h
    · next hcond =>
      push_neg at hcond
      obtain rfl : (⟨s.queue ++ [j], s.pc, s.log ++ [MemEvent.enq j]⟩ :
          MemState) = s' := by injection h
      have hj : j ∉ enqIds s.log := hcond.1
      refine ⟨?_, ?_, ?_, ?_⟩
      · show (enqIds (s.log ++ [MemEvent.enq j])).Nodup
        rw [enqIds_append]
        simp [List.nodup_append, enqId, hinv.nodup, hj]
      · show enqIds (s.log ++ [MemEvent.enq j]) =
          startIds (s.log ++ [MemEvent.enq j]) ++ (s.queue ++ [j])
        rw [enqIds_append, startIds_append]
        simp [enqId, startId, hinv.qsplit, List.append_assoc]
      · show startIds (s.log ++ [MemEvent.enq j]) =
          finIds (s.log ++ [MemEvent.enq j]) ++ _
        rw [startIds_append, finIds_append]
        simpa [startId, finId] using hinv.runs
      · show sfEvents (s.log ++ [MemEvent.enq j]) =
          weave (finIds (s.log ++ [MemEvent.enq j])) ++ _
        rw [sfEvents_append_enq, finIds_append]
        simpa [finId] using hinv.sf
  | take =>
    rw [memStep] at h
    rcases hpc : s.pc with _ | j₀ <;> rw [hpc] at h
    · rcases hq : s.queue with _ | ⟨j, rest⟩ <;> rw [hq] at h
      · cases h
      · obtain rfl : (⟨rest, .working j, s.log ++ [MemEvent.start j]⟩ :
            MemState) = s' := by injection h
        have hruns : startIds s.log = finIds s.log := by
          have h4 := hinv.runs
          rw [hpc] at h4
          simpa using h4
        have hsfe : sfEvents s.log = weave (finIds s.log) := by
          have h4 := hinv.sf
          rw [hpc] at h4
          simpa using h4
        refine ⟨?_, ?_, ?_, ?_⟩
        · show (enqIds (s.log ++ [MemEvent.start j])).Nodup
          rw [enqIds_append]
          simpa [enqId] using hinv.nodup
        · show enqIds (s.log ++ [MemEvent.start j]) =
            startIds (s.log ++ [MemEvent.start j]) ++ rest
          rw [enqIds_append, startIds_append]
          have h5 := hinv.qsplit
          rw [hq] at h5
          simp [enqId, startId, h5]
        · show startIds (s.log ++ [MemEvent.start j]) =
            finIds (s.log ++ [MemEvent.start j]) ++ [j]
          rw [startIds_append, finIds_append]
          simp [startId, finId, hruns]
        · show sfEvents (s.log ++ [MemEvent.start j]) =
            weave (finIds (s.log ++ [MemEvent.start j])) ++ [MemEvent.start j]
          rw [sfEvents_append_start, finIds_append]
          simp [finId, hsfe]
    · cases h
  | complete =>
    rw [memStep] at h
    rcases hpc : s.pc with _ | j <;> rw [hpc] at h
    · cases h
    · obtain rfl : (⟨s.queue, .waiting, s.log ++ [MemEvent.finish j]⟩ :
          MemState) = s' := by injection h
      have hruns : startIds s.log = finIds s.log ++ [j] := by
        have h4 := hinv.runs
        rw [hpc] at h4
        exact h4
      have hsfe : sfEvents s.log = weave (finIds s.log) ++ [MemEvent.start j] := by
        have h4 := hinv.sf
        rw [hpc] at h4
        exact h4
      refine ⟨?_, ?_, ?_, ?_⟩
      · show (enqIds (s.log ++ [MemEvent.finish j])).Nodup
        rw [enqIds_append]
        simpa [enqId] using hinv.nodup
      · show enqIds (s.log ++ [MemEvent.finish j]) =
          startIds (s.log ++ [MemEvent.finish j]) ++ s.queue
        rw [enqIds_append, startIds_append]
        simp [enqId, startId, hinv.qsplit]
      · show startIds (s.log ++ [MemEvent.finish j]) =
          finIds (s.log ++ [MemEvent.finish j]) ++ []
        rw [startIds_append, finIds_append]
        simp [startId, finId, hruns]
      · show sfEvents (s.log ++ [MemEvent.finish j]) =
          weave (finIds (s.log ++ [MemEvent.finish j])) ++ []
        rw [sfEvents_append_finish, finIds_append]
        simp [finId, hsfe, weave_append]

theorem memInv_reach (s : MemState) (h : MemReach memInit s) : MemInv s := by
  induction h with
  | refl => exact memInv_init
  | tail hr hstep ih => exact memInv_step _ _ _ ih hstep

/-- Claim C6: in every reachable state of the sequential writer lane, if J1
was enqueued before J2 and J2's invocation has started, then J1's invocation
finished before J2's started; moreover starts and finishes strictly
alternate, so no two invocations of the writer function ever overlap. -/
theorem memory_worker_fifo_no_overlap (s : MemState) (j1 j2 : Nat)
    (hreach : MemReach memInit s)
    (hbefore : [MemEvent.enq j1, MemEvent.enq j2] <+ s.log)
    (hstart : MemEvent.start j2 ∈ s.log) :
    [MemEvent.finish j1, MemEvent.start j2] <+ s.log ∧
    sfAlternating (sfEvents s.log) = true := by
  have hinv := memInv_reach s hreach
  obtain ⟨qu, pc, lg⟩ := s
  simp only at hbefore hstart
  have hids : [j1, j2] <+ enqIds lg := by
    have h2 := hbefore.filterMap enqId
    simpa [enqIds, enqId] using h2
  have hj2start : j2 ∈ startIds lg :=
    List.mem_filterMap.mpr ⟨MemEvent.start j2, hstart, rfl⟩
  have hnd : (startIds lg ++ qu).Nodup := by
    have h3 := hinv.nodup
    rw [hinv.qsplit] at h3
    exact h3
  have hids' : [j1, j2] <+ startIds lg ++ qu := by
    rw [← hinv.qsplit]
    exact hids
  have hpair : [j1, j2] <+ startIds lg := pair_sublist_left hnd hids' hj2start
  have hlogsub : sfEvents lg <+ lg := List.filter_sublist lg
  rcases pc with _ | j
  · have hruns : startIds lg = finIds lg := by simpa using hinv.runs
    have hsfe : sfEvents lg = weave (finIds lg) := by simpa using hinv.sf
    rw [hruns] at hpair
    refine ⟨((hsfe ▸ pair_sublist_weave _ _ _ hpair : _ <+ sfEvents lg)).trans
      hlogsub, ?_⟩
    rw [hsfe]
    exact sfAlternating_weave _
  · have hruns : startIds lg = finIds lg ++ [j] := by simpa using hinv.runs
    have hsfe : sfEvents lg = weave (finIds lg) ++ [MemEvent.start j] := by
      simpa using hinv.sf
    rw [hruns] at hpair
    have hsf2 : [MemEvent.finish j1, MemEvent.start j2] <+ sfEvents lg := by
      rw [hsfe]
      rcases pair_sublist_concat hpair with hcase | ⟨hbj, haj⟩
      · exact (pair_sublist_weave _ _ _ hcase).trans
          (List.sublist_append_left _ _)
      · subst hbj
        have hf : MemEvent.finish j1 ∈ weave (finIds lg) :=
          finish_mem_weave _ _ haj
        exact (List.singleton_sublist.mpr hf).append (List.Sublist.refl _)
    refine ⟨hsf2.trans hlogsub, ?_⟩
    rw [hsfe]
    exact sfAlternating_weave_start _ _

/-- Witness for `memory_worker_fifo_no_overlap`: jobs 5 and 7 enqueued in
order; job 5 starts and finishes before job 7 starts. -/
theorem memory_worker_fifo_no_overlap_witness :
    [MemEvent.finish 5, MemEvent.start 7] <+
      [MemEvent.enq 5, MemEvent.enq 7, MemEvent.start 5, MemEvent.finish 5,
       MemEvent.start 7] ∧
    sfAlternating (sfEvents
      [MemEvent.enq 5, MemEvent.enq 7, MemEvent.start 5, MemEvent.finish 5,
       MemEvent.start 7]) = true :=
  memory_worker_fifo_no_overlap
    ⟨[], MemPC.working 7,
      [MemEvent.enq 5, MemEvent.enq 7, MemEvent.start 5, MemEvent.finish 5,
       MemEvent.start 7]⟩ 5 7
    (memRun_reach
      [MemStep.produce 5, MemStep.produce 7, MemStep.take, MemStep.complete,
       MemStep.take] memInit _ (by decide))
    (by decide) (by decide)

/-! ## Orchestrator pool (claims C3, C4, C5)

Each of the `num_workers` copies of `orchestrator_worker` runs the loop:
`get` a job, `count += 1` (no lock held), acquire `_status_update_lock`,
read the counter and issue the status broadcast (one atomic step: between
the locked read and the issuing of the sink call the coroutine does not
yield), release the lock, run `orchestrator_func` (return or raise — the
`finally` runs either way), `count -= 1` (no lock held), acquire, broadcast,
release, loop.  The scheduler picks which worker steps next. -/

inductive WPC where
  | getJob
  | beginJob
  | acquire1
  | bcast1
  | release1
  | running
  | endJob
  | acquire2
  | bcast2
  | release2
deriving DecidableEq

/-- The program points at which a worker holds a job it has counted itself
in for: from just after `count += 1` to just before `count -= 1`. -/
def inActiveRegion : WPC → Bool
  | .acquire1 | .bcast1 | .release1 | .running | .endJob => true
  | _ => false

/-- The program points at which a worker holds `_status_update_lock`. -/
def inLockRegion : WPC → Bool
  | .bcast1 | .release1 | .bcast2 | .release2 => true
  | _ => false

def activeCount (pcs : List WPC) : Nat := pcs.countP inActiveRegion

/-- Pool state: the module counter `_active_orchestrator_workers` (a Python
int, hence `Int`), the holder of `_status_update_lock`, the number of queued
jobs, one program counter per worker (worker id = index), and the sequence
of busy/idle flags pushed to the presence sink. -/
structure OrchState where
  count : Int
  lock : Option Nat
  queued : Nat
  pcs : List WPC
  statusLog : List Bool
deriving DecidableEq

/-- One step of worker `w`; `none` when that worker is blocked (empty queue
or contended lock) or does not exist. -/
def orchStep (s : OrchState) (w : Nat) : Option OrchState :=
  match s.pcs[w]? with
  | none => none
  | some pc =>
    match pc with
    | .getJob =>
      match s.queued with
      | 0 => none
      | Nat.succ q => some { s with queued := q, pcs := s.pcs.set w .beginJob }
    | .beginJob =>
      some { s with count := s.count + 1, pcs := s.pcs.set w .acquire1 }
    | .acquire1 =>
      match s.lock with
      | none => some { s with lock := some w, pcs := s.pcs.set w .bcast1 }
      | some _ => none
    | .bcast1 =>
      some { s with
        statusLog := s.statusLog ++ [decide ((s.pcs.length : Int) ≤ s.count)],
        pcs := s.pcs.set w .release1 }
    | .release1 => some { s with lock := none, pcs := s.pcs.set w .running }
    | .running => some { s with pcs := s.pcs.set w .endJob }
    | .endJob =>
      some { s with count := s.count - 1, pcs := s.pcs.set w .acquire2 }
    | .acquire2 =>
      match s.lock with
      | none => some { s with lock := some w, pcs := s.pcs.set w .bcast2 }
      | some _ => none
    | .bcast2 =>
      some { s with
        statusLog := s.statusLog ++ [decide ((s.pcs.length : Int) ≤ s.count)],
        pcs := s.pcs.set w .release2 }
    | .release2 => some { s with lock := none, pcs := s.pcs.set w .getJob }

/-- `start_orchestrator_worker` with `num_workers` workers and `jobs` queued
orchestrator jobs. -/
def orchInit (num_workers jobs : Nat) : OrchState :=
  ⟨0, none, jobs, List.replicate num_workers .getJob, []⟩

inductive OrchReach : OrchState → OrchState → Prop
  | refl (s : OrchState) : OrchReach s s
  | tail {a b c : OrchState} {w : Nat} :
      OrchReach a b → orchStep b w = some c → OrchReach a c

theorem orchReach_head {a b c : OrchState} {w : Nat}
    (h : orchStep a w = some b) (hr : OrchReach b c) : OrchReach a c := by
  induction hr with
  | refl => exact OrchReach.tail (OrchReach.refl a) h
  | tail hr hstep ih => exact OrchReach.tail ih hstep

def orchRun (s : OrchState) : List Nat → Option OrchState
  | [] => some s
  | w :: rest =>
    match orchStep s w with
    | none => none
    | some s' => orchRun s' rest

theorem orchRun_reach (ws : List Nat) (s s' : OrchState)
    (h : orchRun s ws = some s') : OrchReach s s' := by
  induction ws generalizing s with
  | nil =>
    rw [orchRun] at h
    obtain rfl : s = s' := by injection h
    exact OrchReach.refl s
  | cons w rest ih =>
    rw [orchRun] at h
    rcases hs : orchStep s w with _ | s₁ <;> rw [hs] at h
    · cases h
    · exact orchReach_head hs (ih s₁ h)

/-- Relation between the lock holder and the workers' program points: the
lock is held by `w` exactly when `w` sits at a program point inside the
`async with _status_update_lock` block. -/
def LockInv (lk : Option Nat) (pcs : List WPC) : Prop :=
  (∀ w, lk = some w → ∃ pc, pcs[w]? = some pc ∧ inLockRegion pc = true) ∧
  (∀ w pc, pcs[w]? = some pc → inLockRegion pc = true → lk = some w)

theorem lockInv_keep {lk : Option Nat} {pcs : List WPC} {w : Nat}
    {pcOld pcNew : WPC} (hli : LockInv lk pcs) (hpc : pcs[w]? = some pcOld)
    (hOld : inLockRegion pcOld = false) (hNew : inLockRegion pcNew = false) :
    LockInv lk (pcs.set w pcNew) := by
  constructor
  · intro v hv
    obtain ⟨pc, hpcv, hreg⟩ := hli.1 v hv
    have hvw : v ≠ w := by
      intro hvw
      subst hvw
      rw [hpc] at hpcv
      obtain rfl : pcOld = pc := by injection hpcv
      rw [hOld] at hreg
      cases hreg
    exact ⟨pc, by rw [List.getElem?_set_ne (fun he => hvw he.symm)]; exact hpcv,
      hreg⟩
  · intro v pc hpcv hreg
    by_cases hvw : v = w
    · subst hvw
      rw [List.getElem?_set_self ((List.getElem?_eq_some_iff.mp hpc).1)] at hpcv
      obtain rfl : pcNew = pc := by injection hpcv
      rw [hNew] at hreg
      cases hreg
    · rw [List.getElem?_set_ne (fun he => hvw he.symm)] at hpcv
      exact hli.2 v pc hpcv hreg

theorem lockInv_acquire {pcs : List WPC} {w : Nat} {pcOld pcNew : WPC}
    (hli : LockInv none pcs) (hpc : pcs[w]? = some pcOld)
    (hNew : inLockRegion pcNew = true) :
    LockInv (some w) (pcs.set w pcNew) := by
  constructor
  · intro v hv
    obtain rfl : w = v := by injection hv
    exact ⟨pcNew,
      List.getElem?_set_self ((List.getElem?_eq_some_iff.mp hpc).1), hNew⟩
  · intro v pc hpcv hreg
    by_cases hvw : v = w
    · subst hvw
      rfl
    · rw [List.getElem?_set_ne (fun he => hvw he.symm)] at hpcv
      have := hli.2 v pc hpcv hreg
      cases this

theorem lockInv_hold {lk : Option Nat} {pcs : List WPC} {w : Nat}
    {pcOld pcNew : WPC} (hli : LockInv lk pcs) (hpc : pcs[w]? = some pcOld)
    (hOld : inLockRegion pcOld = true) (hNew : inLockRegion pcNew = true) :
    LockInv lk (pcs.set w pcNew) := by
  have hlk : lk = some w := hli.2 w pcOld hpc hOld
  constructor
  · intro v hv
    rw [hlk] at hv
    obtain rfl : w = v := by injection hv
    exact ⟨pcNew,
      List.getElem?_set_self ((List.getElem?_eq_some_iff.mp hpc).1), hNew⟩
  · intro v pc hpcv hreg
    by_cases hvw : v = w
    · subst hvw
      exact hlk
    · rw [List.getElem?_set_ne (fun he => hvw he.symm)] at hpcv
      exact hli.2 v pc hpcv hreg

theorem lockInv_release {lk : Option Nat} {pcs : List WPC} {w : Nat}
    {pcOld pcNew : WPC} (hli : LockInv lk pcs) (hpc : pcs[w]? = some pcOld)
    (hOld : inLockRegion pcOld = true) (hNew : inLockRegion pcNew = false) :
    LockInv none (pcs.set w pcNew) := by
  have hlk : lk = some w := hli.2 w pcOld hpc hOld
  constructor
  · intro v hv
    cases hv
  · intro v pc hpcv hreg
    by_cases hvw : v = w
    · subst hvw
      rw [List.getElem?_set_self ((List.getElem?_eq_some_iff.mp hpc).1)] at hpcv
      obtain rfl : pcNew = pc := by injection hpcv
      rw [hNew] at hreg
      cases hreg
    · rw [List.getElem?_set_ne (fun he => hvw he.symm)] at hpcv
      have h2 := hli.2 v pc hpcv hreg
      rw [hlk] at h2
      obtain rfl : w = v := by injection h2
      exact absurd rfl hvw

/-- Bookkeeping for the active-worker count through a program-counter
update. -/
theorem activeCount_set (pcs : List WPC) (w : Nat) (pcOld pcNew : WPC)
    (hpc : pcs[w]? = some pcOld) :
    (activeCount (pcs.set w pcNew) : Int) =
      (activeCount pcs : Int) - (if inActiveRegion pcOld then 1 else 0)
        + (if inActiveRegion pcNew then 1 else 0) := by
  obtain ⟨hlt, hge⟩ := List.getElem?_eq_some_iff.mp hpc
  have hnat : (pcs.set w pcNew).countP inActiveRegion =
      pcs.countP inActiveRegion - (if inActiveRegion pcOld then 1 else 0)
        + (if inActiveRegion pcNew then 1 else 0) := by
    rw [List.countP_set _ _ _ _ hlt]
    rw [hge]
  have hle : (if inActiveRegion pcOld then 1 else 0) ≤
      pcs.countP inActiveRegion := by
    have h2 := List.boole_getElem_le_countP inActiveRegion pcs w hlt
    rwa [hge] at h2
  rw [activeCount, activeCount]
  rcases hob : inActiveRegion pcOld <;> rcases hnb : inActiveRegion pcNew <;>
    rw [hob] at hnat hle <;> rw [hnb] at hnat <;>
    simp only [if_pos, if_neg, Bool.false_eq_true, if_false, if_true, ite_true,
      ite_false] at hnat hle <;>
    simp [hob, hnb, hnat] <;>
    omega

/-- The pool invariant: the counter equals the number of workers currently
inside the counted region, and the lock holder is exactly the worker inside
the locked region. -/
structure OrchInv (s : OrchState) : Prop where
  count_eq : s.count = (activeCount s.pcs : Int)
  lockinv : LockInv s.lock s.pcs

theorem orchInv_step (s s' : OrchState) (w : Nat) (hinv : OrchInv s)
    (h : orchStep s w = some s') : OrchInv s' := by
  rw [orchStep] at h
  rcases hpc : s.pcs[w]? with _ | pc <;> rw [hpc] at h
  · cases h
  · cases pc with
    | getJob =>
      rcases hq : s.queued with _ | q <;> rw [hq] at h
      · cases h
      · obtain rfl : ({ s with queued := q, pcs := s.pcs.set w WPC.beginJob } :
            OrchState) = s' := by injection h
        refine ⟨?_, ?_⟩
        · show s.count = (activeCount (s.pcs.set w WPC.beginJob) : Int)
          rw [activeCount_set s.pcs w _ _ hpc, hinv.count_eq]
          simp [inActiveRegion]
        · exact lockInv_keep hinv.lockinv hpc (by decide) (by decide)
    | beginJob =>
      obtain rfl : ({ s with count := s.count + 1, pcs := s.pcs.set w WPC.acquire1 } : OrchState) = s' := by injection h
      refine ⟨?_, ?_⟩
      · show s.count + 1 = (activeCount (s.pcs.set w WPC.acquire1) : Int)
        rw [activeCount_set s.pcs w _ _ hpc, hinv.count_eq]
        simp [inActiveRegion]
      · exact lockInv_keep hinv.lockinv hpc (by decide) (by decide)
    | acquire1 =>
      rcases hl : s.lock with _ | v <;> rw [hl] at h
      · obtain rfl : ({ s with lock := some w, pcs := s.pcs.set w WPC.bcast1 } : OrchState) = s' := by injection h
        refine ⟨?_, ?_⟩
        · show s.count = (activeCount (s.pcs.set w WPC.bcast1) : Int)
          rw [activeCount_set s.pcs w _ _ hpc, hinv.count_eq]
          simp [inActiveRegion]
        · have hli := hinv.lockinv
          rw [hl] at hli
          exact lockInv_acquire hli hpc (by decide)
      · cases h
    | bcast1 =>
      obtain rfl : ({ s with statusLog := s.statusLog ++ [decide ((s.pcs.length : Int) ≤ s.count)], pcs := s.pcs.set w WPC.release1 } : OrchState) = s' := by injection h
      refine ⟨?_, ?_⟩
      · show s.count = (activeCount (s.pcs.set w WPC.release1) : Int)
        rw [activeCount_set s.pcs w _ _ hpc, hinv.count_eq]
        simp [inActiveRegion]
      · exact lockInv_hold hinv.lockinv hpc (by decide) (by decide)
    | release1 =>
      obtain rfl : ({ s with lock := none, pcs := s.pcs.set w WPC.running } : OrchState) = s' := by injection h
      refine ⟨?_, ?_⟩
      · show s.count = (activeCount (s.pcs.set w WPC.running) : Int)
        rw [activeCount_set s.pcs w _ _ hpc, hinv.count_eq]
        simp [inActiveRegion]
      · exact lockInv_release hinv.lockinv hpc (by decide) (by decide)
    | running =>
      obtain rfl : ({ s with pcs := s.pcs.set w WPC.endJob } : OrchState) = s' := by injection h
      refine ⟨?_, ?_⟩
      · show s.count = (activeCount (s.pcs.set w WPC.endJob) : Int)
        rw [activeCount_set s.pcs w _ _ hpc, hinv.count_eq]
        simp [inActiveRegion]
      · exact lockInv_keep hinv.lockinv hpc (by decide) (by decide)
    | endJob =>
      obtain rfl : ({ s with count := s.count - 1, pcs := s.pcs.set w WPC.acquire2 } : OrchState) = s' := by injection h
      refine ⟨?_, ?_⟩
      · show s.count - 1 = (activeCount (s.pcs.set w WPC.acquire2) : Int)
        rw [activeCount_set s.pcs w _ _ hpc, hinv.count_eq]
        simp [inActiveRegion]
      · exact lockInv_keep hinv.lockinv hpc (by decide) (by decide)
    | acquire2 =>
      rcases hl : s.lock with _ | v <;> rw [hl] at h
      · obtain rfl : ({ s with lock := some w, pcs := s.pcs.set w WPC.bcast2 } : OrchState) = s' := by injection h
        refine ⟨?_, ?_⟩
        · show s.count = (activeCount (s.pcs.set w WPC.bcast2) : Int)
          rw [activeCount_set s.pcs w _ _ hpc, hinv.count_eq]
          simp [inActiveRegion]
        · have hli := hinv.lockinv
          rw [hl] at hli
          exact lockInv_acquire hli hpc (by decide)
      · cases h
    | bcast2 =>
      obtain rfl : ({ s with statusLog := s.statusLog ++ [decide ((s.pcs.length : Int) ≤ s.count)], pcs := s.pcs.set w WPC.release2 } : OrchState) = s' := by injection h
      refine ⟨?_, ?_⟩
      · show s.count = (activeCount (s.pcs.set w WPC.release2) : Int)
        rw [activeCount_set s.pcs w _ _ hpc, hinv.count_eq]
        simp [inActiveRegion]
      · exact lockInv_hold hinv.lockinv hpc (by decide) (by decide)
    | release2 =>
      obtain rfl : ({ s with lock := none, pcs := s.pcs.set w WPC.getJob } : OrchState) = s' := by injection h
      refine ⟨?_, ?_⟩
      · show s.count = (activeCount (s.pcs.set w WPC.getJob) : Int)
        rw [activeCount_set s.pcs w _ _ hpc, hinv.count_eq]
        simp [inActiveRegion]
      · exact lockInv_release hinv.lockinv hpc (by decide) (by decide)

theorem orchInv_init (n j : Nat) : OrchInv (orchInit n j) := by
  refine ⟨?_, ?_, ?_⟩
  · show (0 : Int) = (activeCount (List.replicate n WPC.getJob) : Int)
    rw [activeCount, List.countP_replicate]
    simp [inActiveRegion]
  · intro w hw
    exact Option.noConfusion hw
  · intro w pc hpc hreg
    have hpc2 : (List.replicate n WPC.getJob)[w]? = some pc := hpc
    rw [List.getElem?_replicate] at hpc2
    split at hpc2
    · obtain rfl : WPC.getJob = pc := by injection hpc2
      exact absurd hreg (by decide)
    · cases hpc2

theorem orchInv_reach (n j : Nat) (s : OrchState)
    (h : OrchReach (orchInit n j) s) : OrchInv s := by
  induction h with
  | refl => exact orchInv_init n j
  | tail hr hstep ih => exact orchInv_step _ _ _ ih hstep

theorem orchStep_length (s s' : OrchState) (w : Nat)
    (h : orchStep s w = some s') : s'.pcs.length = s.pcs.length := by
  have hset : ∃ x, s'.pcs = s.pcs.set w x := by
    rw [orchStep] at h
    rcases hpc : s.pcs[w]? with _ | pc <;> rw [hpc] at h
    · cases h
    · cases pc <;>
        (try (rcases hq : s.queued with _ | q <;> rw [hq] at h)) <;>
        (try (rcases hl : s.lock with _ | v <;> rw [hl] at h)) <;>
        first
          | (obtain rfl := Option.some.inj h; exact ⟨_, rfl⟩)
          | cases h
  obtain ⟨x, hx⟩ := hset
  rw [hx, List.length_set]

theorem orchReach_length (n j : Nat) (s : OrchState)
    (h : OrchReach (orchInit n j) s) : s.pcs.length = n := by
  induction h with
  | refl => exact List.length_replicate n WPC.getJob
  | tail hr hstep ih => rw [orchStep_length _ _ _ hstep, ih]

/-- A step that extends the status log is a broadcast step: the stepping
worker sits at one of the two broadcast points and the flag pushed is
`count >= num_workers` evaluated at that instant. -/
theorem orchStep_log_eq (s s' : OrchState) (w : Nat) (b : Bool)
    (h : orchStep s w = some s')
    (hlog : s'.statusLog = s.statusLog ++ [b]) :
    (s.pcs[w]? = some WPC.bcast1 ∨ s.pcs[w]? = some WPC.bcast2) ∧
    b = decide ((s.pcs.length : Int) ≤ s.count) := by
  rw [orchStep] at h
  rcases hpc : s.pcs[w]? with _ | pc <;> rw [hpc] at h
  · cases h
  · have hsame : ∀ t : OrchState, t = s' → t.statusLog = s.statusLog → False := by
      intro t hts ht
      rw [hts] at ht
      rw [ht] at hlog
      have h3 := congrArg List.length hlog
      simp at h3
    have hsame2 : ∀ t : OrchState, some t = some s' →
        t.statusLog = s.statusLog → False := by
      intro t hts ht
      exact hsame t (Option.some.inj hts) ht
    cases pc with
    | getJob =>
      rcases hq : s.queued with _ | q <;> rw [hq] at h
      · cases h
      · exact (hsame2 _ h rfl).elim
    | beginJob => exact (hsame2 _ h rfl).elim
    | acquire1 =>
      rcases hl : s.lock with _ | v <;> rw [hl] at h
      · exact (hsame2 _ h rfl).elim
      · cases h
    | bcast1 =>
      obtain rfl : ({ s with statusLog := s.statusLog ++ [decide ((s.pcs.length : Int) ≤ s.count)], pcs := s.pcs.set w WPC.release1 } : OrchState) = s' := by injection h
      refine ⟨Or.inl rfl, ?_⟩
      have h4 : s.statusLog ++ [decide ((s.pcs.length : Int) ≤ s.count)] =
          s.statusLog ++ [b] := hlog
      have h5 := List.append_cancel_left h4
      injection h5 with h6 h7
      exact h6.symm
    | release1 => exact (hsame2 _ h rfl).elim
    | running => exact (hsame2 _ h rfl).elim
    | endJob => exact (hsame2 _ h rfl).elim
    | acquire2 =>
      rcases hl : s.lock with _ | v <;> rw [hl] at h
      · exact (hsame2 _ h rfl).elim
      · cases h
    | bcast2 =>
      obtain rfl : ({ s with statusLog := s.statusLog ++ [decide ((s.pcs.length : Int) ≤ s.count)], pcs := s.pcs.set w WPC.release2 } : OrchState) = s' := by injection h
      refine ⟨Or.inr rfl, ?_⟩
      have h4 : s.statusLog ++ [decide ((s.pcs.length : Int) ≤ s.count)] =
          s.statusLog ++ [b] := hlog
      have h5 := List.append_cancel_left h4
      injection h5 with h6 h7
      exact h6.symm
    | release2 => exact (hsame2 _ h rfl).elim

theorem activeCount_pos_of_active (pcs : List WPC) (w : Nat) (pc : WPC)
    (hpc : pcs[w]? = some pc) (hreg : inActiveRegion pc = true) :
    1 ≤ activeCount pcs := by
  obtain ⟨hlt, hge⟩ := List.getElem?_eq_some_iff.mp hpc
  have h1 := List.boole_getElem_le_countP inActiveRegion pcs w hlt
  rw [hge, hreg] at h1
  simpa [activeCount] using h1

theorem activeCount_lt_of_inactive (pcs : List WPC) (w : Nat) (pc : WPC)
    (hpc : pcs[w]? = some pc) (hreg : inActiveRegion pc = false) :
    activeCount pcs + 1 ≤ pcs.length := by
  have hset := activeCount_set pcs w pc WPC.running hpc
  rw [hreg] at hset
  simp [inActiveRegion] at hset
  have hle : activeCount (pcs.set w WPC.running) ≤ (pcs.set w WPC.running).length :=
    List.countP_le_length inActiveRegion
  rw [List.length_set] at hle
  omega

/-- Claim C3, counterexample: the counter `_active_orchestrator_workers` is
incremented by a worker while `_status_update_lock` is NOT held: in the
one-worker pool, after dequeuing a job the worker's next step changes the
counter from a state whose lock is free. -/
theorem active_count_mutation_outside_guard :
    ¬ (∀ s s' : OrchState, ∀ w : Nat, OrchReach (orchInit 1 1) s →
        orchStep s w = some s' → s'.count ≠ s.count → s.lock = some w) := by
  intro hclaim
  have hreach : OrchReach (orchInit 1 1) ⟨0, none, 0, [WPC.beginJob], []⟩ :=
    orchRun_reach [0] (orchInit 1 1) ⟨0, none, 0, [WPC.beginJob], []⟩
      (by decide)
  have hstep : orchStep ⟨0, none, 0, [WPC.beginJob], []⟩ 0 =
      some ⟨1, none, 0, [WPC.acquire1], []⟩ := by decide
  exact absurd (hclaim ⟨0, none, 0, [WPC.beginJob], []⟩
    ⟨1, none, 0, [WPC.acquire1], []⟩ 0 hreach hstep (by decide)) (by decide)

/-- Claim C3 (amended): the counter is mutated outside the guard (see the
counterexample), but every status broadcast is issued while the broadcasting
worker holds the guard, each worker's increment precedes its first broadcast
(at the first broadcast point its own job is already counted, so the counter
is at least 1), and each decrement precedes the second broadcast (there the
worker's job is no longer counted, so the counter is at most
numWorkers - 1). -/
theorem broadcast_under_guard (n j : Nat) (s s' : OrchState) (w : Nat)
    (b : Bool)
    (hreach : OrchReach (orchInit n j) s)
    (hstep : orchStep s w = some s')
    (hlog : s'.statusLog = s.statusLog ++ [b]) :
    s.lock = some w ∧
    (s.pcs[w]? = some WPC.bcast1 → 1 ≤ s.count) ∧
    (s.pcs[w]? = some WPC.bcast2 → s.count + 1 ≤ (s.pcs.length : Int)) := by
  have hinv := orchInv_reach n j s hreach
  obtain ⟨hbc, hb⟩ := orchStep_log_eq s s' w b hstep hlog
  refine ⟨?_, ?_, ?_⟩
  · rcases hbc with hp | hp
    · exact hinv.lockinv.2 w _ hp (by decide)
    · exact hinv.lockinv.2 w _ hp (by decide)
  · intro hp
    have h1 := activeCount_pos_of_active s.pcs w _ hp (by decide)
    rw [hinv.count_eq]
    omega
  · intro hp
    have h1 := activeCount_lt_of_inactive s.pcs w _ hp (by decide)
    rw [hinv.count_eq]
    omega

/-- Witness for `broadcast_under_guard`: the first broadcast of a
single-worker pool. -/
theorem broadcast_under_guard_witness :
    (⟨1, some 0, 0, [WPC.bcast1], []⟩ : OrchState).lock = some 0 ∧
    ((⟨1, some 0, 0, [WPC.bcast1], []⟩ : OrchState).pcs[0]? =
        some WPC.bcast1 →
      1 ≤ (⟨1, some 0, 0, [WPC.bcast1], []⟩ : OrchState).count) ∧
    ((⟨1, some 0, 0, [WPC.bcast1], []⟩ : OrchState).pcs[0]? =
        some WPC.bcast2 →
      (⟨1, some 0, 0, [WPC.bcast1], []⟩ : OrchState).count + 1 ≤
        ((⟨1, some 0, 0, [WPC.bcast1], []⟩ : OrchState).pcs.length : Int)) :=
  broadcast_under_guard 1 1 ⟨1, some 0, 0, [WPC.bcast1], []⟩
    ⟨1, some 0, 0, [WPC.release1], [true]⟩ 0 true
    (orchRun_reach [0, 0, 0] (orchInit 1 1) ⟨1, some 0, 0, [WPC.bcast1], []⟩
      (by decide))
    (by decide) (by decide)

/-- Claim C4: at every status broadcast of a pool of `n` workers, the flag
pushed to the presence sink is busy exactly when all `n` workers are
occupied with a job (the counter equals `n`), and idle exactly when fewer
than `n` are (the counter has dropped below `n`). -/
theorem status_busy_iff_all_workers_active (n j : Nat) (s s' : OrchState)
    (w : Nat) (b : Bool)
    (hreach : OrchReach (orchInit n j) s)
    (hstep : orchStep s w = some s')
    (hlog : s'.statusLog = s.statusLog ++ [b]) :
    s.pcs.length = n ∧
    (b = true ↔ activeCount s.pcs = n) ∧
    (b = false ↔ activeCount s.pcs < n) := by
  have hinv := orchInv_reach n j s hreach
  have hlen := orchReach_length n j s hreach
  obtain ⟨hbc, hb⟩ := orchStep_log_eq s s' w b hstep hlog
  have hub : activeCount s.pcs ≤ n := by
    have h2 : activeCount s.pcs ≤ s.pcs.length := List.countP_le_length inActiveRegion
    omega
  rw [hinv.count_eq, hlen] at hb
  subst hb
  refine ⟨hlen, ⟨fun hbt => ?_, fun hae => ?_⟩, ⟨fun hbf => ?_, fun hlt => ?_⟩⟩
  · have h3 := of_decide_eq_true hbt
    omega
  · exact decide_eq_true (by omega)
  · have h3 := of_decide_eq_false hbf
    omega
  · exact decide_eq_false (by omega)

/-- Witness for `status_busy_iff_all_workers_active`: the first broadcast of
a single-worker pool reports busy. -/
theorem status_busy_iff_all_workers_active_witness :
    (⟨1, some 0, 0, [WPC.bcast1], []⟩ : OrchState).pcs.length = 1 ∧
    (true = true ↔
      activeCount (⟨1, some 0, 0, [WPC.bcast1], []⟩ : OrchState).pcs = 1) ∧
    (true = false ↔
      activeCount (⟨1, some 0, 0, [WPC.bcast1], []⟩ : OrchState).pcs < 1) :=
  status_busy_iff_all_workers_active 1 1 ⟨1, some 0, 0, [WPC.bcast1], []⟩
    ⟨1, some 0, 0, [WPC.release1], [true]⟩ 0 true
    (orchRun_reach [0, 0, 0] (orchInit 1 1) ⟨1, some 0, 0, [WPC.bcast1], []⟩
      (by decide))
    (by decide) (by decide)

/-- Claim C5: in every state reachable under any interleaving of the `n`
worker loops, `0 <= active_count <= n`. -/
theorem active_count_within_bounds (n j : Nat) (s : OrchState)
    (hreach : OrchReach (orchInit n j) s) :
    0 ≤ s.count ∧ s.count ≤ (n : Int) := by
  have hinv := orchInv_reach n j s hreach
  have hlen := orchReach_length n j s hreach
  have h2 : activeCount s.pcs ≤ s.pcs.length := List.countP_le_length inActiveRegion
  rw [hinv.count_eq]
  omega

/-- Witness for `active_count_within_bounds`: a two-worker pool after one
worker has dequeued and counted itself in. -/
theorem active_count_within_bounds_witness :
    0 ≤ (⟨1, none, 2, [WPC.acquire1, WPC.getJob], []⟩ : OrchState).count ∧
    (⟨1, none, 2, [WPC.acquire1, WPC.getJob], []⟩ : OrchState).count ≤
      ((2 : Nat) : Int) :=
  active_count_within_bounds 2 3 ⟨1, none, 2, [WPC.acquire1, WPC.getJob], []⟩
    (orchRun_reach [0, 0] (orchInit 2 3)
      ⟨1, none, 2, [WPC.acquire1, WPC.getJob], []⟩ (by decide))

end KiraT
